import Mathlib

/-!
# Verification of the repository's tokenizer-related logic

The repository is two notebooks: a tokenization-exploration notebook
(defining `analyze_tokenization` over a table of library tokenizers) and a
word-prediction notebook (defining `predict_text` over a text-generation
pipeline).  The specification additionally describes, at design level, a
self-contained byte-level BPE tokenizer (`BPETokenizer`) that the notebooks
exercise only through a library; that component's code is not part of the
sources, so it is modelled here from the specification's own words.

Text is modelled as its sequence of raw bytes (`List Nat`, each `< 256`):
the specification's lossless-round-trip invariant is stated over byte
sequences, and the byte-to-unicode table makes every byte representable, so
the UTF-8 encoding step of `encode` and the final UTF-8 interpretation step
of `decode` are the identity lens on this representation.
-/

namespace BPE

/-- Modelled from the spec: a token string is a sequence of byte-level
unicode characters, represented by their code points. -/
abbrev Sym := List Nat

/-- Modelled from the spec: the error kinds of §7 (the spec's component code
is absent from the sources). -/
inductive TokError where
  | ConfigError
  | UnknownTokenError
  | UnknownIdError
  | InvalidByteMappingError
deriving DecidableEq, Repr

/-- Modelled from the spec: the configuration supplied at construction —
a vocabulary (token string → id), an ordered merge-rule table whose rank is
the position in the list, and the byte-to-unicode table (entry `b` is the
code point assigned to byte `b`). -/
structure BPEConfig where
  vocab : List (Sym × Nat)
  merges : List (Sym × Sym)
  byteToUni : List Nat
deriving DecidableEq, Repr

/-- Modelled from the spec: the tokenizer state after a successful
construction; immutable afterwards. -/
structure BPETokenizer where
  vocab : List (Sym × Nat)
  merges : List (Sym × Sym)
  byteToUni : List Nat
deriving DecidableEq, Repr

/-- Lookup of a token string in the vocabulary (token → id). -/
def lookupToken : List (Sym × Nat) → Sym → Option Nat
  | [], _ => none
  | e :: rest, t => if e.1 = t then some e.2 else lookupToken rest t

/-- Lookup in the inverse vocabulary (id → token string). -/
def lookupId : List (Sym × Nat) → Nat → Option Sym
  | [], _ => none
  | e :: rest, i => if e.2 = i then some e.1 else lookupId rest i

/-- Byte-to-unicode mapping: entry `b` of the table. -/
def b2u (table : List Nat) (b : Nat) : Nat := table.getD b 0

/-- Inverse byte-to-unicode mapping: the index of a code point in the
table, i.e. the byte it stands for. -/
def u2b : List Nat → Nat → Option Nat
  | [], _ => none
  | x :: rest, u => if x = u then some 0 else (u2b rest u).map Nat.succ

/-- Modelled from the spec: construction validates the configuration and
fails with `ConfigError` when the vocabulary is empty, when some merge
pair's concatenation is absent from the vocabulary, or when the
byte-to-unicode table is not a complete bijection over the 256 byte
values (length 256 and no duplicate code points). -/
def BPETokenizer.create (cfg : BPEConfig) : Except TokError BPETokenizer :=
  if cfg.vocab = [] then .error .ConfigError
  else if ∃ p ∈ cfg.merges, lookupToken cfg.vocab (p.1 ++ p.2) = none then
    .error .ConfigError
  else if cfg.byteToUni.length = 256 ∧ cfg.byteToUni.Nodup then
    .ok ⟨cfg.vocab, cfg.merges, cfg.byteToUni⟩
  else .error .ConfigError

/-- Does the pair `(a, b)` occur adjacently in the symbol sequence? -/
def containsPair (a b : Sym) : List Sym → Bool
  | x :: y :: rest =>
    if x = a ∧ y = b then true else containsPair a b (y :: rest)
  | _ => false

/-- Merge every non-overlapping occurrence of the adjacent pair `(a, b)`
into a single symbol, left to right. -/
def mergePair (a b : Sym) : List Sym → List Sym
  | x :: y :: rest =>
    if x = a ∧ y = b then (x ++ y) :: mergePair a b rest
    else x :: mergePair a b (y :: rest)
  | l => l

/-- The adjacent pair of lowest merge rank present in the sequence: the
merge table is scanned in rank order for the first entry that occurs
adjacently. -/
def lowestRankPair (ms : List (Sym × Sym)) (syms : List Sym) : Option (Sym × Sym) :=
  ms.find? (fun p => containsPair p.1 p.2 syms)

/-- Fuel-indexed BPE merge loop: repeatedly merge the lowest-rank adjacent
pair present in the sequence, stopping when none of the adjacent pairs is
in the merge table. -/
def bpeLoopF (ms : List (Sym × Sym)) : Nat → List Sym → List Sym
  | 0, syms => syms
  | n + 1, syms =>
    match lowestRankPair ms syms with
    | none => syms
    | some (a, b) => bpeLoopF ms n (mergePair a b syms)

/-- Modelled from the spec: the iterative BPE merge of §4.1 step 3.  Each
merge strictly shortens the sequence, so fuel equal to the initial length
always suffices (proved below), making this the exact fixpoint of the
unbounded loop. -/
def bpe (ms : List (Sym × Sym)) (syms : List Sym) : List Sym :=
  bpeLoopF ms syms.length syms

/-- ASCII letter byte. -/
def isLetterByte (b : Nat) : Bool :=
  decide ((65 ≤ b ∧ b ≤ 90) ∨ (97 ≤ b ∧ b ≤ 122))

/-- ASCII digit byte. -/
def isDigitByte (b : Nat) : Bool := decide (48 ≤ b ∧ b ≤ 57)

/-- ASCII whitespace byte. -/
def isSpaceByte (b : Nat) : Bool :=
  decide (b = 32 ∨ b = 9 ∨ b = 10 ∨ b = 13 ∨ b = 11 ∨ b = 12)

/-- Pre-tokenization byte class: letter, digit, whitespace, or other
(punctuation and all remaining bytes, including UTF-8 continuation
bytes). -/
def byteClass (b : Nat) : Nat :=
  if isLetterByte b then 0
  else if isDigitByte b then 1
  else if isSpaceByte b then 2
  else 3

/-- Word-like byte: letter or digit. -/
def wordlike (b : Nat) : Bool := isLetterByte b || isDigitByte b

/-- Fuel-indexed pre-tokenizer: splits the byte sequence into maximal runs
of a single byte class, attaching a leading single space to the following
word-like run. -/
def pretokenizeF : Nat → List Nat → List (List Nat)
  | 0, _ => []
  | _ + 1, [] => []
  | _ + 1, [b] => [[b]]
  | n + 1, b :: c :: rest2 =>
    if b = 32 ∧ wordlike c then
      (b :: c :: rest2.takeWhile (fun x => decide (byteClass x = byteClass c))) ::
        pretokenizeF n (rest2.dropWhile (fun x => decide (byteClass x = byteClass c)))
    else
      (b :: (c :: rest2).takeWhile (fun x => decide (byteClass x = byteClass b))) ::
        pretokenizeF n ((c :: rest2).dropWhile (fun x => decide (byteClass x = byteClass b)))

/-- Modelled from the spec: §4.1 step 1 — split the text into pre-tokens
by runs of letters, digits, whitespace and punctuation, a leading single
space being part of the following word-like unit.  Each step consumes at
least one byte, so fuel equal to the length suffices. -/
def pretokenize (l : List Nat) : List (List Nat) := pretokenizeF l.length l

/-- Map each final symbol to its id via the vocabulary; fails with
`UnknownTokenError` when a symbol has no vocabulary entry. -/
def mapSymbols (vocab : List (Sym × Nat)) : List Sym → Except TokError (List Nat)
  | [] => .ok []
  | s :: rest =>
    match lookupToken vocab s with
    | none => .error .UnknownTokenError
    | some i =>
      match mapSymbols vocab rest with
      | .error e => .error e
      | .ok is => .ok (i :: is)

/-- Modelled from the spec: §4.1 steps 2–4 for one pre-token — map each
raw byte through the byte-to-unicode table into a one-character symbol,
run the iterative BPE merge, then map each final symbol to its id. -/
def encodePretoken (tok : BPETokenizer) (p : List Nat) : Except TokError (List Nat) :=
  mapSymbols tok.vocab (bpe tok.merges (p.map (fun b => [b2u tok.byteToUni b])))

/-- Encode each pre-token in order and concatenate the id sequences. -/
def encodePretokens (tok : BPETokenizer) : List (List Nat) → Except TokError (List Nat)
  | [] => .ok []
  | p :: rest =>
    match encodePretoken tok p with
    | .error e => .error e
    | .ok ids =>
      match encodePretokens tok rest with
      | .error e => .error e
      | .ok more => .ok (ids ++ more)

/-- Modelled from the spec: `encode` of §4.1 — pre-tokenize, encode each
pre-token, and concatenate the ids in original order. -/
def encode (tok : BPETokenizer) (text : List Nat) : Except TokError (List Nat) :=
  encodePretokens tok (pretokenize text)

/-- Map each id back to its token string via the inverse vocabulary; fails
with `UnknownIdError` when an id is absent. -/
def idsToTokens (vocab : List (Sym × Nat)) : List Nat → Except TokError (List Sym)
  | [] => .ok []
  | i :: rest =>
    match lookupId vocab i with
    | none => .error .UnknownIdError
    | some t =>
      match idsToTokens vocab rest with
      | .error e => .error e
      | .ok ts => .ok (t :: ts)

/-- Map each code point back through the inverse byte-to-unicode table;
fails with `InvalidByteMappingError` when a code point is not in the
table. -/
def unisToBytes (table : List Nat) : List Nat → Except TokError (List Nat)
  | [] => .ok []
  | u :: rest =>
    match u2b table u with
    | none => .error .InvalidByteMappingError
    | some b =>
      match unisToBytes table rest with
      | .error e => .error e
      | .ok bs => .ok (b :: bs)

/-- Modelled from the spec: `decode` of §4.1 — map ids to token strings,
concatenate, and map each character back to its byte. -/
def decode (tok : BPETokenizer) (ids : List Nat) : Except TokError (List Nat) :=
  match idsToTokens tok.vocab ids with
  | .error e => .error e
  | .ok toks => unisToBytes tok.byteToUni toks.flatten

/-- Concrete witness table: the identity byte-to-unicode table. -/
def tableW : List Nat := List.range 256

/-- Concrete witness vocabulary: one single-byte token per byte value,
with the byte value as id. -/
def vocabW : List (Sym × Nat) := (List.range 256).map (fun b => ([b], b))

/-- Concrete witness configuration with an empty merge table. -/
def cfgW : BPEConfig := ⟨vocabW, [], tableW⟩

/-- The tokenizer the witness configuration constructs. -/
def tokW : BPETokenizer := ⟨vocabW, [], tableW⟩

end BPE

namespace Notebook

/-- Whitespace characters stripped by the strip call of the
word-prediction notebook: the full set of code points Python's str.strip
removes — the ASCII whitespace and separator controls 9–13, 28–31 and 32,
next line 133, no-break space 160, ogham space 5760, the en-quad through
hair-space range 8192–8202, line and paragraph separators 8232 and 8233,
narrow no-break space 8239, medium mathematical space 8287, and
ideographic space 12288. -/
def pySpace (c : Char) : Bool :=
  decide ((9 ≤ c.toNat ∧ c.toNat ≤ 13) ∨ (28 ≤ c.toNat ∧ c.toNat ≤ 31) ∨
    c.toNat = 32 ∨ c.toNat = 133 ∨ c.toNat = 160 ∨ c.toNat = 5760 ∨
    (8192 ≤ c.toNat ∧ c.toNat ≤ 8202) ∨ c.toNat = 8232 ∨ c.toNat = 8233 ∨
    c.toNat = 8239 ∨ c.toNat = 8287 ∨ c.toNat = 12288)

/-- Removal of leading whitespace. -/
def stripLeading (l : List Char) : List Char := l.dropWhile pySpace

/-- Removal of trailing whitespace. -/
def stripTrailing (l : List Char) : List Char := (l.reverse.dropWhile pySpace).reverse

/-- The strip call of the notebook: remove leading and trailing
whitespace. -/
def pyStrip (l : List Char) : List Char := stripTrailing (stripLeading l)

/-- The post-processing of predict_text from the word-prediction notebook:
for each generated text returned by the pipeline, drop the first
len(prompt) characters and strip surrounding whitespace.  The pipeline's
outputs are passed explicitly; the pipeline returns one generated text per
requested sequence. -/
def predict_text (prompt : List Char) (outputs : List (List Char)) : List (List Char) :=
  outputs.map (fun generated_text => pyStrip (generated_text.drop prompt.length))

/-- analyze_tokenization from the tokenization notebook: look the
tokenizer up by name in the tokenizers table (modelled as the function
name ↦ encode), encode the sentence, and return the number of tokens —
the same count the printed breakdown reports.  The embedding is a pure
function, so the sentence and the table are left unchanged by
construction. -/
def analyze_tokenization (tokenizers : String → String → List Nat)
    (sentence : String) (tokenizer_name : String) : Nat :=
  (tokenizers tokenizer_name sentence).length

/-- The notebook's call of analyze_tokenization with the default
tokenizer name, which is GPT-2. -/
def analyze_tokenization_default (tokenizers : String → String → List Nat)
    (sentence : String) : Nat :=
  analyze_tokenization tokenizers sentence "GPT-2"

end Notebook

namespace BPE

/-! ## Pre-tokenization is a partition of the input -/

/-- With fuel at least the length of the input, the pre-tokens concatenate
back to the input. -/
theorem pretokenizeF_flatten : ∀ (n : Nat) (l : List Nat), l.length ≤ n →
    (pretokenizeF n l).flatten = l
  | 0, [], _ => rfl
  | 0, _ :: _, h => absurd h (by simp)
  | _ + 1, [], _ => rfl
  | _ + 1, [_], _ => by simp [pretokenizeF]
  | n + 1, b :: c :: rest2, h => by
    have hlen : rest2.length + 2 ≤ n + 1 := by simpa using h
    by_cases hc : b = 32 ∧ wordlike c
    · have hd : (rest2.dropWhile (fun x => decide (byteClass x = byteClass c))).length ≤ n := by
        have := (List.dropWhile_sublist
          (l := rest2) (fun x => decide (byteClass x = byteClass c))).length_le
        omega
      simp only [pretokenizeF, if_pos hc, List.flatten_cons,
        pretokenizeF_flatten n _ hd]
      simp [List.takeWhile_append_dropWhile]
    · have hd : ((c :: rest2).dropWhile
          (fun x => decide (byteClass x = byteClass b))).length ≤ n := by
        have := (List.dropWhile_sublist
          (l := c :: rest2) (fun x => decide (byteClass x = byteClass b))).length_le
        simp at this; omega
      simp only [pretokenizeF, if_neg hc, List.flatten_cons,
        pretokenizeF_flatten n _ hd]
      simp [List.takeWhile_append_dropWhile]

/-- The pre-tokens concatenate back to the input text. -/
theorem pretokenize_flatten (l : List Nat) : (pretokenize l).flatten = l :=
  pretokenizeF_flatten l.length l le_rfl

/-! ## The merge step -/

/-- Merging a pair does not change the concatenation of the symbols. -/
theorem mergePair_flatten (a b : Sym) : ∀ l : List Sym,
    (mergePair a b l).flatten = l.flatten
  | [] => rfl
  | [_] => rfl
  | x :: y :: rest => by
    by_cases h : x = a ∧ y = b
    · simp [mergePair, if_pos h, mergePair_flatten a b rest]
    · simp [mergePair, if_neg h, mergePair_flatten a b (y :: rest)]

/-- Every symbol of the merged sequence is an original symbol or the
concatenation of the merged pair. -/
theorem mergePair_mem (a b : Sym) : ∀ (l : List Sym) (s : Sym),
    s ∈ mergePair a b l → s ∈ l ∨ s = a ++ b
  | [], _, hs => .inl hs
  | [_], _, hs => .inl hs
  | x :: y :: rest, s, hs => by
    by_cases h : x = a ∧ y = b
    · rw [mergePair, if_pos h] at hs
      rcases List.mem_cons.mp hs with h1 | h1
      · exact .inr (by rw [h1, h.1, h.2])
      · rcases mergePair_mem a b rest s h1 with h2 | h2
        · exact .inl (by simp [h2])
        · exact .inr h2
    · rw [mergePair, if_neg h] at hs
      rcases List.mem_cons.mp hs with h1 | h1
      · exact .inl (by simp [h1])
      · rcases mergePair_mem a b (y :: rest) s h1 with h2 | h2
        · exact .inl (List.mem_cons_of_mem x h2)
        · exact .inr h2

/-- Merging never lengthens the sequence. -/
theorem mergePair_length_le (a b : Sym) : ∀ l : List Sym,
    (mergePair a b l).length ≤ l.length
  | [] => le_rfl
  | [_] => le_rfl
  | x :: y :: rest => by
    by_cases h : x = a ∧ y = b
    · have := mergePair_length_le a b rest
      simp [mergePair, if_pos h]; omega
    · have := mergePair_length_le a b (y :: rest)
      simp [mergePair, if_neg h]; simp at this; omega

/-- When the pair occurs adjacently, merging strictly shortens the
sequence. -/
theorem mergePair_length_lt (a b : Sym) : ∀ l : List Sym,
    containsPair a b l = true → (mergePair a b l).length < l.length
  | [], h => by simp [containsPair] at h
  | [_], h => by simp [containsPair] at h
  | x :: y :: rest, h => by
    by_cases hx : x = a ∧ y = b
    · have := mergePair_length_le a b rest
      simp [mergePair, if_pos hx]; omega
    · rw [containsPair, if_neg hx] at h
      have := mergePair_length_lt a b (y :: rest) h
      simp [mergePair, if_neg hx]; simp at this; omega

/-! ## The lowest-rank pair selection -/

/-- A selected pair occurs adjacently in the sequence and is a merge-table
entry. -/
theorem lowestRankPair_some (ms : List (Sym × Sym)) (syms : List Sym) (a b : Sym)
    (h : lowestRankPair ms syms = some (a, b)) :
    containsPair a b syms = true ∧ (a, b) ∈ ms := by
  refine ⟨?_, List.mem_of_find?_eq_some h⟩
  have := List.find?_some h
  simpa using this

/-- No pair is adjacent in the empty sequence. -/
theorem lowestRankPair_nil (ms : List (Sym × Sym)) : lowestRankPair ms [] = none :=
  List.find?_eq_none.mpr (fun _ _ => by simp [containsPair])

/-- No pair is adjacent in a single-symbol sequence. -/
theorem lowestRankPair_single (ms : List (Sym × Sym)) (x : Sym) :
    lowestRankPair ms [x] = none :=
  List.find?_eq_none.mpr (fun _ _ => by simp [containsPair])

/-! ## The BPE merge loop -/

/-- The loop never changes the concatenation of the symbols. -/
theorem bpeLoopF_flatten (ms : List (Sym × Sym)) : ∀ (n : Nat) (syms : List Sym),
    (bpeLoopF ms n syms).flatten = syms.flatten
  | 0, _ => rfl
  | n + 1, syms => by
    rw [bpeLoopF]
    cases h : lowestRankPair ms syms with
    | none => rfl
    | some p =>
      rw [bpeLoopF_flatten ms n (mergePair p.1 p.2 syms), mergePair_flatten]

/-- Every symbol the loop produces is an initial symbol or the
concatenation of some merge-table pair. -/
theorem bpeLoopF_mem (ms : List (Sym × Sym)) : ∀ (n : Nat) (syms : List Sym) (s : Sym),
    s ∈ bpeLoopF ms n syms → s ∈ syms ∨ ∃ p ∈ ms, s = p.1 ++ p.2
  | 0, _, _, hs => .inl hs
  | n + 1, syms, s, hs => by
    rw [bpeLoopF] at hs
    cases h : lowestRankPair ms syms with
    | none => rw [h] at hs; exact .inl hs
    | some p =>
      rw [h] at hs
      rcases bpeLoopF_mem ms n (mergePair p.1 p.2 syms) s hs with h1 | h1
      · rcases mergePair_mem p.1 p.2 syms s h1 with h2 | h2
        · exact .inl h2
        · exact .inr ⟨p, (lowestRankPair_some ms syms p.1 p.2 (by simpa using h)).2, h2⟩
      · exact .inr h1

/-- Fuel is irrelevant beyond the sequence length: any two sufficient fuels
give the same result, so the fuelled loop computes the unbounded loop's
fixpoint. -/
theorem bpeLoopF_fuel_irrel (ms : List (Sym × Sym)) : ∀ (n m : Nat) (syms : List Sym),
    syms.length ≤ n → n ≤ m → bpeLoopF ms m syms = bpeLoopF ms n syms
  | 0, m, syms, hn, _ => by
    have hnil : syms = [] := List.length_eq_zero.mp (Nat.le_zero.mp hn)
    subst hnil
    cases m with
    | zero => rfl
    | succ m => simp [bpeLoopF, lowestRankPair_nil]
  | n + 1, m, syms, hn, hm => by
    cases m with
    | zero => omega
    | succ m =>
      rw [bpeLoopF, bpeLoopF]
      cases h : lowestRankPair ms syms with
      | none => rfl
      | some p =>
        have hlt : (mergePair p.1 p.2 syms).length < syms.length :=
          mergePair_length_lt p.1 p.2 syms (lowestRankPair_some ms syms p.1 p.2 h).1
        exact bpeLoopF_fuel_irrel ms n m (mergePair p.1 p.2 syms) (by omega) (by omega)

/-- With sufficient fuel the loop reaches a sequence in which no adjacent
pair is in the merge table. -/
theorem bpeLoopF_fixpoint (ms : List (Sym × Sym)) : ∀ (n : Nat) (syms : List Sym),
    syms.length ≤ n → lowestRankPair ms (bpeLoopF ms n syms) = none
  | 0, syms, hn => by
    have hnil : syms = [] := List.length_eq_zero.mp (Nat.le_zero.mp hn)
    subst hnil; exact lowestRankPair_nil ms
  | n + 1, syms, hn => by
    rw [bpeLoopF]
    cases h : lowestRankPair ms syms with
    | none => exact h
    | some p =>
      have hlt : (mergePair p.1 p.2 syms).length < syms.length :=
        mergePair_length_lt p.1 p.2 syms (lowestRankPair_some ms syms p.1 p.2 h).1
      exact bpeLoopF_fixpoint ms n (mergePair p.1 p.2 syms) (by omega)

/-- The concatenation of the symbols is invariant under the whole merge. -/
theorem bpe_flatten (ms : List (Sym × Sym)) (syms : List Sym) :
    (bpe ms syms).flatten = syms.flatten :=
  bpeLoopF_flatten ms syms.length syms

/-- Closure of the merge result: every final symbol is an initial symbol or
the concatenation of a merge pair. -/
theorem bpe_mem (ms : List (Sym × Sym)) (syms : List Sym) (s : Sym)
    (hs : s ∈ bpe ms syms) : s ∈ syms ∨ ∃ p ∈ ms, s = p.1 ++ p.2 :=
  bpeLoopF_mem ms syms.length syms s hs

/-- When no adjacent pair of the sequence is in the merge table, the merge
is the identity. -/
theorem bpe_of_no_pair (ms : List (Sym × Sym)) (syms : List Sym)
    (h : lowestRankPair ms syms = none) : bpe ms syms = syms := by
  unfold bpe
  cases hl : syms.length with
  | zero => rfl
  | succ n => rw [bpeLoopF, h]

/-! ## Vocabulary lookups -/

/-- A successful token lookup yields an id of the vocabulary. -/
theorem lookupToken_mem_snd : ∀ (v : List (Sym × Nat)) (t : Sym) (i : Nat),
    lookupToken v t = some i → i ∈ v.map Prod.snd
  | [], _, _, h => by simp [lookupToken] at h
  | e :: rest, t, i, h => by
    rw [lookupToken] at h
    by_cases he : e.1 = t
    · rw [if_pos he] at h
      simp [Option.some_inj.mp h]
    · rw [if_neg he] at h
      exact List.mem_cons_of_mem _ (lookupToken_mem_snd rest t i h)

/-- With injective ids, the inverse vocabulary lookup inverts the token
lookup. -/
theorem lookupId_lookupToken : ∀ (v : List (Sym × Nat)) (t : Sym) (i : Nat),
    (v.map Prod.snd).Nodup → lookupToken v t = some i → lookupId v i = some t
  | [], _, _, _, h => by simp [lookupToken] at h
  | e :: rest, t, i, hnd, h => by
    rw [lookupToken] at h
    rw [lookupId]
    rw [List.map_cons, List.nodup_cons] at hnd
    by_cases he : e.1 = t
    · rw [if_pos he] at h
      rw [if_pos (Option.some_inj.mp h), he]
    · rw [if_neg he] at h
      have hmem : i ∈ rest.map Prod.snd := lookupToken_mem_snd rest t i h
      have hne : e.2 ≠ i := fun hcontra => hnd.1 (hcontra ▸ hmem)
      rw [if_neg hne]
      exact lookupId_lookupToken rest t i hnd.2 h

/-! ## Symbol-to-id mapping and its inverse -/

/-- When every symbol has a vocabulary entry, mapping symbols to ids
succeeds. -/
theorem mapSymbols_ok : ∀ (v : List (Sym × Nat)) (syms : List Sym),
    (∀ s ∈ syms, (lookupToken v s).isSome) →
    ∃ ids, mapSymbols v syms = .ok ids
  | _, [], _ => ⟨[], rfl⟩
  | v, s :: rest, hall => by
    obtain ⟨i, hi⟩ := Option.isSome_iff_exists.mp (hall s (by simp))
    obtain ⟨ids, hids⟩ := mapSymbols_ok v rest (fun x hx => hall x (by simp [hx]))
    exact ⟨i :: ids, by rw [mapSymbols, hi, hids]⟩

/-- With injective ids, the id-to-token mapping inverts the symbol-to-id
mapping. -/
theorem idsToTokens_mapSymbols : ∀ (v : List (Sym × Nat)) (syms : List Sym)
    (ids : List Nat), (v.map Prod.snd).Nodup → mapSymbols v syms = .ok ids →
    idsToTokens v ids = .ok syms
  | _, [], ids, _, h => by
    rw [mapSymbols] at h
    rw [← Except.ok.inj h]
    rfl
  | v, s :: rest, ids, hnd, h => by
    rw [mapSymbols] at h
    cases hi : lookupToken v s with
    | none => rw [hi] at h; exact absurd h (by simp)
    | some i =>
      rw [hi] at h
      cases hrest : mapSymbols v rest with
      | error e => rw [hrest] at h; exact absurd h (by simp)
      | ok is =>
        rw [hrest] at h
        have hids : ids = i :: is := (Except.ok.inj h).symm
        subst hids
        rw [idsToTokens, lookupId_lookupToken v s i hnd hi,
          idsToTokens_mapSymbols v rest is hnd hrest]

/-- Id-to-token mapping distributes over concatenation of id sequences. -/
theorem idsToTokens_append : ∀ (v : List (Sym × Nat)) (l1 l2 : List Nat)
    (t1 t2 : List Sym), idsToTokens v l1 = .ok t1 → idsToTokens v l2 = .ok t2 →
    idsToTokens v (l1 ++ l2) = .ok (t1 ++ t2)
  | _, [], _, t1, _, h1, h2 => by
    rw [idsToTokens] at h1
    rw [← Except.ok.inj h1]
    simpa using h2
  | v, i :: rest, l2, t1, t2, h1, h2 => by
    rw [idsToTokens] at h1
    cases ht : lookupId v i with
    | none => rw [ht] at h1; exact absurd h1 (by simp)
    | some t =>
      rw [ht] at h1
      cases hrest : idsToTokens v rest with
      | error e => rw [hrest] at h1; exact absurd h1 (by simp)
      | ok ts =>
        rw [hrest] at h1
        have h1h : t1 = t :: ts := (Except.ok.inj h1).symm
        subst h1h
        rw [List.cons_append, idsToTokens, ht,
          idsToTokens_append v rest l2 ts t2 hrest h2]
        rfl

/-! ## The byte-to-unicode table and its inverse -/

/-- With a duplicate-free table, the inverse mapping inverts the
byte-to-unicode mapping on every in-range byte. -/
theorem u2b_b2u : ∀ (table : List Nat) (b : Nat), table.Nodup →
    b < table.length → u2b table (b2u table b) = some b
  | [], _, _, hb => by simp at hb
  | x :: rest, 0, _, _ => by simp [u2b, b2u]
  | x :: rest, b + 1, hnd, hb => by
    rw [List.nodup_cons] at hnd
    have hblt : b < rest.length := by simpa using hb
    have hmem : b2u rest b ∈ rest := by
      rw [b2u, List.getD_eq_getElem rest 0 hblt]
      exact List.getElem_mem hblt
    have hxne : x ≠ b2u rest b := fun hcontra => hnd.1 (hcontra ▸ hmem)
    have hb2u : b2u (x :: rest) (b + 1) = b2u rest b := by
      simp [b2u]
    rw [hb2u, u2b, if_neg hxne, u2b_b2u rest b hnd.2 hblt]
    rfl

/-- Mapping a byte sequence through the table and back recovers it. -/
theorem unisToBytes_map_b2u : ∀ (table : List Nat) (p : List Nat), table.Nodup →
    (∀ b ∈ p, b < table.length) →
    unisToBytes table (p.map (b2u table)) = .ok p
  | _, [], _, _ => rfl
  | table, b :: rest, hnd, hall => by
    rw [List.map_cons, unisToBytes, u2b_b2u table b hnd (hall b (by simp)),
      unisToBytes_map_b2u table rest hnd (fun x hx => hall x (by simp [hx]))]

/-! ## Inversion of a successful construction -/

/-- A successful construction copies the configuration verbatim and
certifies all three validity conditions. -/
theorem create_ok (cfg : BPEConfig) (tok : BPETokenizer)
    (h : BPETokenizer.create cfg = .ok tok) :
    tok.vocab = cfg.vocab ∧ tok.merges = cfg.merges ∧ tok.byteToUni = cfg.byteToUni ∧
    cfg.vocab ≠ [] ∧
    (∀ p ∈ cfg.merges, lookupToken cfg.vocab (p.1 ++ p.2) ≠ none) ∧
    cfg.byteToUni.length = 256 ∧ cfg.byteToUni.Nodup := by
  rw [BPETokenizer.create] at h
  by_cases h1 : cfg.vocab = []
  · rw [if_pos h1] at h; exact absurd h (by simp)
  · rw [if_neg h1] at h
    by_cases h2 : ∃ p ∈ cfg.merges, lookupToken cfg.vocab (p.1 ++ p.2) = none
    · rw [if_pos h2] at h; exact absurd h (by simp)
    · rw [if_neg h2] at h
      by_cases h3 : cfg.byteToUni.length = 256 ∧ cfg.byteToUni.Nodup
      · rw [if_pos h3] at h
        have htok := Except.ok.inj h
        push_neg at h2
        exact ⟨by rw [← htok], by rw [← htok], by rw [← htok], h1, h2, h3.1, h3.2⟩
      · rw [if_neg h3] at h; exact absurd h (by simp)

/-- Flattening a list of one-element lists is the list of the elements. -/
theorem flatten_map_singleton (f : Nat → Nat) : ∀ p : List Nat,
    (p.map (fun b => ([f b] : List Nat))).flatten = p.map f
  | [] => rfl
  | b :: rest => by simp [flatten_map_singleton f rest]

/-! ## Round trip through one pre-token and through the whole text -/

/-- Encoding one pre-token succeeds and its ids decode back to the final
symbols, whose concatenation is the byte-mapped pre-token. -/
theorem encodePretoken_roundtrip (tok : BPETokenizer)
    (hmer : ∀ p ∈ tok.merges, (lookupToken tok.vocab (p.1 ++ p.2)).isSome)
    (hids : (tok.vocab.map Prod.snd).Nodup) (p : List Nat)
    (hcov : ∀ b ∈ p, (lookupToken tok.vocab [b2u tok.byteToUni b]).isSome) :
    ∃ ids toks, encodePretoken tok p = .ok ids ∧
      idsToTokens tok.vocab ids = .ok toks ∧
      toks.flatten = p.map (b2u tok.byteToUni) := by
  have hall : ∀ s ∈ bpe tok.merges (p.map (fun b => [b2u tok.byteToUni b])),
      (lookupToken tok.vocab s).isSome := by
    intro s hs
    rcases bpe_mem tok.merges _ s hs with h1 | ⟨q, hq, hq2⟩
    · obtain ⟨b, hb, hb2⟩ := List.mem_map.mp h1
      rw [← hb2]
      exact hcov b hb
    · rw [hq2]
      exact hmer q hq
  obtain ⟨ids, hok⟩ := mapSymbols_ok tok.vocab _ hall
  refine ⟨ids, bpe tok.merges (p.map (fun b => [b2u tok.byteToUni b])), hok,
    idsToTokens_mapSymbols tok.vocab _ ids hids hok, ?_⟩
  rw [bpe_flatten, flatten_map_singleton]

/-- Encoding a list of pre-tokens succeeds and the concatenated ids decode
back to symbols whose concatenation is the byte-mapped concatenation of the
pre-tokens. -/
theorem encodePretokens_roundtrip (tok : BPETokenizer)
    (hmer : ∀ p ∈ tok.merges, (lookupToken tok.vocab (p.1 ++ p.2)).isSome)
    (hids : (tok.vocab.map Prod.snd).Nodup) : ∀ pts : List (List Nat),
    (∀ p ∈ pts, ∀ b ∈ p, (lookupToken tok.vocab [b2u tok.byteToUni b]).isSome) →
    ∃ ids toks, encodePretokens tok pts = .ok ids ∧
      idsToTokens tok.vocab ids = .ok toks ∧
      toks.flatten = pts.flatten.map (b2u tok.byteToUni)
  | [], _ => ⟨[], [], rfl, rfl, rfl⟩
  | p :: pts, hcov => by
    obtain ⟨ids1, toks1, hok1, hdec1, hfl1⟩ :=
      encodePretoken_roundtrip tok hmer hids p (hcov p (by simp))
    obtain ⟨ids2, toks2, hok2, hdec2, hfl2⟩ :=
      encodePretokens_roundtrip tok hmer hids pts
        (fun q hq => hcov q (by simp [hq]))
    refine ⟨ids1 ++ ids2, toks1 ++ toks2, ?_, ?_, ?_⟩
    · rw [encodePretokens, hok1, hok2]
    · exact idsToTokens_append tok.vocab ids1 ids2 toks1 toks2 hdec1 hdec2
    · rw [List.flatten_append, hfl1, hfl2, List.flatten_cons, List.map_append]

/-- C1: on a successfully constructed tokenizer whose vocabulary assigns
distinct ids and contains a token for every byte-mapped single-byte symbol,
decoding the result of encoding any byte sequence (printable ASCII,
multi-byte UTF-8, or arbitrary bytes) reproduces that sequence exactly:
decode (encode s) = s. -/
theorem encode_decode_roundtrip (cfg : BPEConfig) (tok : BPETokenizer)
    (hcreate : BPETokenizer.create cfg = .ok tok)
    (hcov : ∀ b, b < 256 → (lookupToken tok.vocab [b2u tok.byteToUni b]).isSome)
    (hids : (tok.vocab.map Prod.snd).Nodup)
    (s : List Nat) (hs : ∀ x ∈ s, x < 256) :
    ∃ ids, encode tok s = .ok ids ∧ decode tok ids = .ok s := by
  obtain ⟨hv, hm, ht, _, hmer0, hlen, hnd⟩ := create_ok cfg tok hcreate
  have hmer : ∀ p ∈ tok.merges, (lookupToken tok.vocab (p.1 ++ p.2)).isSome := by
    intro p hp
    rw [hm] at hp
    rw [hv]
    exact Option.isSome_iff_ne_none.mpr (hmer0 p hp)
  have hcovpts : ∀ p ∈ pretokenize s, ∀ b ∈ p,
      (lookupToken tok.vocab [b2u tok.byteToUni b]).isSome := by
    intro p hp b hb
    have hbs : b ∈ s := by
      rw [← pretokenize_flatten s]
      exact List.mem_flatten.mpr ⟨p, hp, hb⟩
    exact hcov b (hs b hbs)
  obtain ⟨ids, toks, hok, hdec, hfl⟩ :=
    encodePretokens_roundtrip tok hmer hids (pretokenize s) hcovpts
  refine ⟨ids, hok, ?_⟩
  have hstep : decode tok ids = unisToBytes tok.byteToUni toks.flatten := by
    rw [decode, hdec]
  rw [hstep, hfl, pretokenize_flatten]
  exact unisToBytes_map_b2u tok.byteToUni s (ht ▸ hnd)
    (fun x hx => by rw [ht, hlen]; exact hs x hx)

/-- Looking up the singleton token of a listed byte in the byte-token
vocabulary yields that byte as id. -/
theorem lookupToken_pairs_self : ∀ (l : List Nat) (b : Nat), b ∈ l →
    lookupToken (l.map (fun k => (([k] : Sym), k))) [b] = some b
  | [], b, hb => absurd hb (List.not_mem_nil b)
  | k :: rest, b, hb => by
    rw [List.map_cons, lookupToken]
    by_cases hk : k = b
    · simp [hk]
    · have hne : (([k] : Sym)) ≠ [b] := by simpa using hk
      rw [if_neg hne]
      refine lookupToken_pairs_self rest b ?_
      rcases List.mem_cons.mp hb with h | h
      · exact absurd h.symm hk
      · exact h

/-- The witness configuration constructs the witness tokenizer. -/
theorem createW : BPETokenizer.create cfgW = .ok tokW := by
  have hlen : cfgW.vocab.length = 256 := by
    simp only [cfgW]
    rw [vocabW, List.length_map, List.length_range]
  have h1 : ¬ cfgW.vocab = [] := by
    intro hc
    rw [hc] at hlen
    exact absurd hlen (by decide)
  have h2 : ¬ ∃ p ∈ cfgW.merges, lookupToken cfgW.vocab (p.1 ++ p.2) = none := by
    rintro ⟨p, hp, _⟩
    simp only [cfgW] at hp
    exact List.not_mem_nil p hp
  have h3 : cfgW.byteToUni.length = 256 ∧ cfgW.byteToUni.Nodup := by
    constructor
    · simp only [cfgW]
      rw [tableW, List.length_range]
    · simp only [cfgW]
      rw [tableW]
      exact List.nodup_range 256
  rw [BPETokenizer.create, if_neg h1, if_neg h2, if_pos h3]
  simp only [cfgW, tokW]

/-- The witness vocabulary covers every byte-mapped single-byte symbol. -/
theorem coverW : ∀ b, b < 256 → (lookupToken tokW.vocab [b2u tokW.byteToUni b]).isSome := by
  intro b hb
  simp only [tokW]
  have hblen : b < (List.range 256).length := by
    rw [List.length_range]
    exact hb
  have hb2u : b2u tableW b = b := by
    rw [b2u, tableW, List.getD_eq_getElem _ 0 hblen, List.getElem_range]
  rw [hb2u, vocabW, lookupToken_pairs_self (List.range 256) b (List.mem_range.mpr hb)]
  rfl

/-- The witness vocabulary assigns distinct ids. -/
theorem nodupW : (tokW.vocab.map Prod.snd).Nodup := by
  have h : tokW.vocab.map Prod.snd = List.range 256 := by
    simp only [tokW]
    rw [vocabW, List.map_map]
    exact List.map_id' (List.range 256)
  rw [h]
  exact List.nodup_range 256

/-- Witness for C1: the round trip at the concrete byte sequence of the
text Hi on the concrete witness tokenizer. -/
theorem encode_decode_roundtrip_witness :
    ∃ ids, encode tokW [72, 105] = .ok ids ∧ decode tokW ids = .ok [72, 105] :=
  encode_decode_roundtrip cfgW tokW createW coverW nodupW [72, 105] (by decide)

/-- C2: encode is a pure, deterministic function of the input text and the
constructed tokenizer: two calls on the same tokenizer and text return
identical results, there being no hidden state in the embedding. -/
theorem encode_deterministic (tok : BPETokenizer) (s : List Nat)
    (r1 r2 : Except TokError (List Nat))
    (h1 : encode tok s = r1) (h2 : encode tok s = r2) : r1 = r2 := by
  rw [← h1, ← h2]

/-- Witness for C2: two calls of encode on the witness tokenizer and the
empty text both return the empty id sequence. -/
theorem encode_deterministic_witness :
    (Except.ok [] : Except TokError (List Nat)) = Except.ok [] :=
  encode_deterministic tokW [] (.ok []) (.ok []) rfl rfl

/-- One unfolding step of the merge loop when a lowest-rank pair is
present. -/
theorem bpeLoopF_succ_some (ms : List (Sym × Sym)) (n : Nat) (syms : List Sym)
    (a b : Sym) (h : lowestRankPair ms syms = some (a, b)) :
    bpeLoopF ms (n + 1) syms = bpeLoopF ms n (mergePair a b syms) := by
  rw [bpeLoopF, h]

/-- C3: the iterative BPE merge loop terminates on every input — the final
state has no mergeable adjacent pair, each step with a selected pair
strictly decreases the length, fuel beyond the initial length never
changes the result (so the fuelled loop is the unbounded loop's fixpoint),
and the loop stops immediately on a length-one sequence or when no
adjacent pair is in the merge table. -/
theorem bpe_terminates (ms : List (Sym × Sym)) (syms : List Sym) :
    lowestRankPair ms (bpe ms syms) = none
    ∧ (∀ a b, lowestRankPair ms syms = some (a, b) →
        (mergePair a b syms).length < syms.length)
    ∧ (∀ n, syms.length ≤ n → bpeLoopF ms n syms = bpe ms syms)
    ∧ (syms.length = 1 → bpe ms syms = syms)
    ∧ (lowestRankPair ms syms = none → bpe ms syms = syms) := by
  refine ⟨bpeLoopF_fixpoint ms syms.length syms le_rfl, ?_, ?_, ?_,
    bpe_of_no_pair ms syms⟩
  · intro a b h
    exact mergePair_length_lt a b syms (lowestRankPair_some ms syms a b h).1
  · intro n hn
    exact bpeLoopF_fuel_irrel ms syms.length n syms le_rfl hn
  · intro h1
    apply bpe_of_no_pair
    obtain ⟨x, hx⟩ := List.length_eq_one.mp h1
    rw [hx]
    exact lowestRankPair_single ms x

/-- Witness for C3: on the three-symbol sequence with the one-rule merge
table, the selected pair strictly decreases the length. -/
theorem bpe_terminates_witness :
    (mergePair [1] [2] [[1], [2], [3]]).length < ([[1], [2], [3]] : List Sym).length :=
  (bpe_terminates [(([1] : Sym), [2])] [[1], [2], [3]]).2.1 [1] [2] (by decide)

/-- C4: merge order respects global rank — with a merge table ranking
(a, b) before (b, c) and input symbols [a, b, c], the loop selects and
merges (a, b) first, yielding [a ++ b, c], and then re-runs the selection
on the updated sequence rather than continuing a single linear scan. -/
theorem merge_priority (a b c : Sym) :
    lowestRankPair [(a, b), (b, c)] [a, b, c] = some (a, b)
    ∧ mergePair a b [a, b, c] = [a ++ b, c]
    ∧ bpe [(a, b), (b, c)] [a, b, c] = bpeLoopF [(a, b), (b, c)] 2 [a ++ b, c] := by
  have hcp : containsPair a b [a, b, c] = true := by
    rw [containsPair, if_pos ⟨rfl, rfl⟩]
  have h1 : lowestRankPair [(a, b), (b, c)] [a, b, c] = some (a, b) := by
    rw [lowestRankPair]
    exact List.find?_cons_of_pos _ hcp
  have h2 : mergePair a b [a, b, c] = [a ++ b, c] := by
    rw [mergePair, if_pos ⟨rfl, rfl⟩]
    rfl
  refine ⟨h1, h2, ?_⟩
  have h3 : bpe [(a, b), (b, c)] [a, b, c] = bpeLoopF [(a, b), (b, c)] 3 [a, b, c] := rfl
  rw [h3, bpeLoopF_succ_some [(a, b), (b, c)] 2 [a, b, c] a b h1, h2]

/-- C5: construction fails with ConfigError exactly when the configuration
is inconsistent — empty vocabulary, a merge pair whose concatenation is
missing from the vocabulary, or a byte-to-unicode table that is not a
complete bijection over the 256 byte values — and succeeds otherwise. -/
theorem create_configError_iff (cfg : BPEConfig) :
    (BPETokenizer.create cfg = .error .ConfigError ↔
      cfg.vocab = [] ∨ (∃ p ∈ cfg.merges, lookupToken cfg.vocab (p.1 ++ p.2) = none) ∨
        ¬ (cfg.byteToUni.length = 256 ∧ cfg.byteToUni.Nodup))
    ∧ (¬ (cfg.vocab = [] ∨ (∃ p ∈ cfg.merges, lookupToken cfg.vocab (p.1 ++ p.2) = none) ∨
        ¬ (cfg.byteToUni.length = 256 ∧ cfg.byteToUni.Nodup)) →
      BPETokenizer.create cfg = .ok ⟨cfg.vocab, cfg.merges, cfg.byteToUni⟩) := by
  constructor
  · rw [BPETokenizer.create]
    by_cases h1 : cfg.vocab = []
    · rw [if_pos h1]
      exact ⟨fun _ => .inl h1, fun _ => rfl⟩
    · rw [if_neg h1]
      by_cases h2 : ∃ p ∈ cfg.merges, lookupToken cfg.vocab (p.1 ++ p.2) = none
      · rw [if_pos h2]
        exact ⟨fun _ => .inr (.inl h2), fun _ => rfl⟩
      · rw [if_neg h2]
        by_cases h3 : cfg.byteToUni.length = 256 ∧ cfg.byteToUni.Nodup
        · rw [if_pos h3]
          constructor
          · intro hcontra
            exact absurd hcontra (by simp)
          · rintro (hc | hc | hc)
            · exact absurd hc h1
            · exact absurd hc h2
            · exact absurd h3 hc
        · rw [if_neg h3]
          exact ⟨fun _ => .inr (.inr h3), fun _ => rfl⟩
  · intro hno
    rw [BPETokenizer.create]
    have h1 : ¬ cfg.vocab = [] := fun hc => hno (.inl hc)
    have h2 : ¬ ∃ p ∈ cfg.merges, lookupToken cfg.vocab (p.1 ++ p.2) = none :=
      fun hc => hno (.inr (.inl hc))
    have h3 : cfg.byteToUni.length = 256 ∧ cfg.byteToUni.Nodup :=
      of_not_not (fun hc => hno (.inr (.inr hc)))
    rw [if_neg h1, if_neg h2, if_pos h3]

/-- Witness for C5: the witness configuration satisfies none of the three
failure conditions, so its construction succeeds. -/
theorem create_configError_iff_witness :
    BPETokenizer.create cfgW = .ok ⟨cfgW.vocab, cfgW.merges, cfgW.byteToUni⟩ :=
  (create_configError_iff cfgW).2 (by
    have hok := create_ok cfgW tokW createW
    rintro (h | h | h)
    · exact hok.2.2.2.1 h
    · obtain ⟨p, hp, hnone⟩ := h
      exact (hok.2.2.2.2.1 p hp) hnone
    · exact h ⟨hok.2.2.2.2.2.1, hok.2.2.2.2.2.2⟩)

/-- An id-to-token mapping failure is always an UnknownIdError. -/
theorem idsToTokens_error_unknown (v : List (Sym × Nat)) : ∀ (ids : List Nat)
    (e : TokError), idsToTokens v ids = .error e → e = .UnknownIdError
  | [], e, h => by simp [idsToTokens] at h
  | i :: rest, e, h => by
    rw [idsToTokens] at h
    cases hi : lookupId v i with
    | none =>
      rw [hi] at h
      exact (Except.error.inj h).symm
    | some t =>
      rw [hi] at h
      cases hr : idsToTokens v rest with
      | error e2 =>
        rw [hr] at h
        rw [← Except.error.inj h]
        exact idsToTokens_error_unknown v rest e2 hr
      | ok ts =>
        rw [hr] at h
        exact absurd h (by simp)

/-- The id-to-token mapping fails with UnknownIdError exactly when some id
has no inverse-vocabulary entry. -/
theorem idsToTokens_unknown_iff (v : List (Sym × Nat)) : ∀ ids : List Nat,
    idsToTokens v ids = .error .UnknownIdError ↔ ∃ i ∈ ids, lookupId v i = none
  | [] => by simp [idsToTokens]
  | i :: rest => by
    rw [idsToTokens]
    cases hi : lookupId v i with
    | none =>
      exact ⟨fun _ => ⟨i, by simp, hi⟩, fun _ => rfl⟩
    | some t =>
      cases hr : idsToTokens v rest with
      | error e2 =>
        have he : e2 = .UnknownIdError := idsToTokens_error_unknown v rest e2 hr
        subst he
        constructor
        · intro _
          obtain ⟨j, hj, hjn⟩ := (idsToTokens_unknown_iff v rest).mp hr
          exact ⟨j, by simp [hj], hjn⟩
        · intro _
          rfl
      | ok ts =>
        constructor
        · intro hcontra
          exact absurd hcontra (by simp)
        · rintro ⟨j, hj, hjn⟩
          rcases List.mem_cons.mp hj with hji | hjr
          · rw [hji] at hjn
            rw [hi] at hjn
            exact absurd hjn (by simp)
          · have := (idsToTokens_unknown_iff v rest).mpr ⟨j, hjr, hjn⟩
            rw [hr] at this
            exact absurd this (by simp)

/-- The character-to-byte mapping never fails with UnknownIdError. -/
theorem unisToBytes_ne_unknown (t : List Nat) : ∀ l : List Nat,
    unisToBytes t l ≠ .error .UnknownIdError
  | [] => by simp [unisToBytes]
  | u :: rest => by
    rw [unisToBytes]
    cases hu : u2b t u with
    | none => simp
    | some b =>
      cases hr : unisToBytes t rest with
      | error e =>
        intro hcontra
        have he : e = .UnknownIdError := Except.error.inj hcontra
        exact unisToBytes_ne_unknown t rest (by rw [hr, he])
      | ok bs => simp

/-- C6: decode fails with UnknownIdError exactly when some id of the input
has no inverse-vocabulary entry; when every id is present, decode does not
raise UnknownIdError. -/
theorem decode_unknownId_iff (tok : BPETokenizer) (ids : List Nat) :
    (decode tok ids = .error .UnknownIdError ↔ ∃ i ∈ ids, lookupId tok.vocab i = none)
    ∧ ((∀ i ∈ ids, lookupId tok.vocab i ≠ none) →
      decode tok ids ≠ .error .UnknownIdError) := by
  have hmain : decode tok ids = .error .UnknownIdError ↔
      ∃ i ∈ ids, lookupId tok.vocab i = none := by
    rw [decode]
    cases h : idsToTokens tok.vocab ids with
    | error e =>
      have he : e = .UnknownIdError := idsToTokens_error_unknown tok.vocab ids e h
      subst he
      constructor
      · intro _
        exact (idsToTokens_unknown_iff tok.vocab ids).mp h
      · intro _
        rfl
    | ok toks =>
      constructor
      · intro hcontra
        exact absurd hcontra (unisToBytes_ne_unknown tok.byteToUni toks.flatten)
      · intro hex
        have hcontra := (idsToTokens_unknown_iff tok.vocab ids).mpr hex
        rw [h] at hcontra
        exact absurd hcontra (by simp)
  refine ⟨hmain, ?_⟩
  intro hall hcontra
  obtain ⟨i, hi, hin⟩ := hmain.mp hcontra
  exact hall i hi hin

/-- Witness for C6: decoding the id sequence of the single id 0, present
in the witness vocabulary, does not raise UnknownIdError. -/
theorem decode_unknownId_iff_witness :
    decode tokW [0] ≠ .error .UnknownIdError :=
  (decode_unknownId_iff tokW [0]).2 (by decide)

/-- C7: empty input is not an error — encoding the empty text yields the
empty id sequence and decoding the empty id sequence yields the empty
text. -/
theorem empty_input (tok : BPETokenizer) :
    encode tok [] = .ok [] ∧ decode tok [] = .ok [] :=
  ⟨rfl, rfl⟩

end BPE

namespace Notebook

/-- The first element surviving dropWhile fails the predicate. -/
theorem dropWhile_head_not (p : Char → Bool) : ∀ (l : List Char) (x : Char),
    (l.dropWhile p).head? = some x → p x = false
  | [], x, h => by simp at h
  | c :: rest, x, h => by
    rw [List.dropWhile_cons] at h
    by_cases hc : p c = true
    · rw [if_pos hc] at h
      exact dropWhile_head_not p rest x h
    · rw [if_neg hc] at h
      simp at h
      rw [← h]
      simpa using hc

/-- Stripping trailing whitespace yields a prefix of the list. -/
theorem stripTrailing_isPrefixOf (l : List Char) : stripTrailing l <+: l := by
  have h0 : l.reverse.dropWhile pySpace <:+ l.reverse := List.dropWhile_suffix pySpace
  have h := h0.reverse
  rwa [List.reverse_reverse] at h

/-- A nonempty prefix has the same head. -/
theorem prefix_head_eq (s m : List Char) (hpre : s <+: m) (x : Char)
    (hx : s.head? = some x) : m.head? = some x := by
  obtain ⟨t, rfl⟩ := hpre
  cases s with
  | nil => simp at hx
  | cons a tail => simpa using hx

/-- A stripped list never starts with whitespace. -/
theorem pyStrip_head_not (l : List Char) (x : Char)
    (h : (pyStrip l).head? = some x) : pySpace x = false := by
  have hpre : stripTrailing (stripLeading l) <+: stripLeading l :=
    stripTrailing_isPrefixOf (stripLeading l)
  have hh : (stripLeading l).head? = some x := prefix_head_eq _ _ hpre x h
  exact dropWhile_head_not pySpace l x hh

/-- A stripped list never ends with whitespace. -/
theorem pyStrip_getLast_not (l : List Char) (x : Char)
    (h : (pyStrip l).getLast? = some x) : pySpace x = false := by
  have h2 : ((stripLeading l).reverse.dropWhile pySpace).head? = some x := by
    rw [← List.getLast?_reverse]
    exact h
  exact dropWhile_head_not pySpace (stripLeading l).reverse x h2

/-- Stripping a list that starts with whitespace strictly shortens it. -/
theorem pyStrip_length_lt (l : List Char) (x : Char) (hx : l.head? = some x)
    (hws : pySpace x = true) : (pyStrip l).length < l.length := by
  cases l with
  | nil => simp at hx
  | cons c t =>
    have hcx : c = x := by simpa using hx
    have h1 : stripLeading (c :: t) = t.dropWhile pySpace := by
      rw [stripLeading, List.dropWhile_cons, if_pos (by rw [hcx]; exact hws)]
    have h2 : (stripTrailing (stripLeading (c :: t))).length ≤
        (stripLeading (c :: t)).length :=
      (stripTrailing_isPrefixOf (stripLeading (c :: t))).length_le
    have h3 : (t.dropWhile pySpace).length ≤ t.length :=
      (List.dropWhile_sublist pySpace).length_le
    calc (pyStrip (c :: t)).length ≤ (stripLeading (c :: t)).length := h2
      _ = (t.dropWhile pySpace).length := by rw [h1]
      _ ≤ t.length := h3
      _ < (c :: t).length := by simp

/-- C9: predict_text returns one completion per pipeline output; each is
the corresponding generated text with the first len(prompt) characters
removed and surrounding whitespace stripped; no completion starts or ends
with whitespace; and for every output extending the prompt whose raw
remainder starts with a whitespace character, recomposing the prompt with
the stripped completion does not recover the generated text. -/
theorem predict_text_spec (prompt : List Char) (outputs : List (List Char)) (n : Nat)
    (hn : outputs.length = n) :
    (predict_text prompt outputs).length = n
    ∧ predict_text prompt outputs =
        outputs.map (fun g => pyStrip (g.drop prompt.length))
    ∧ (∀ comp ∈ predict_text prompt outputs,
        (∀ x, comp.head? = some x → pySpace x = false) ∧
        (∀ x, comp.getLast? = some x → pySpace x = false))
    ∧ (∀ g ∈ outputs, g.take prompt.length = prompt →
        ∀ x, (g.drop prompt.length).head? = some x → pySpace x = true →
        prompt ++ pyStrip (g.drop prompt.length) ≠ g) := by
  refine ⟨?_, rfl, ?_, ?_⟩
  · rw [predict_text, List.length_map, hn]
  · intro comp hcomp
    rw [predict_text] at hcomp
    obtain ⟨g, hg, rfl⟩ := List.mem_map.mp hcomp
    exact ⟨fun x hx => pyStrip_head_not _ x hx,
      fun x hx => pyStrip_getLast_not _ x hx⟩
  · intro g _ htake x hx hws hcontra
    have hsplit : prompt ++ g.drop prompt.length = g := by
      conv_rhs => rw [← List.take_append_drop prompt.length g]
      rw [htake]
    have heq : pyStrip (g.drop prompt.length) = g.drop prompt.length :=
      List.append_cancel_left (hcontra.trans hsplit.symm)
    have hlt : (pyStrip (g.drop prompt.length)).length <
        (g.drop prompt.length).length :=
      pyStrip_length_lt (g.drop prompt.length) x hx hws
    rw [heq] at hlt
    exact lt_irrefl _ hlt

/-- Witness for C9: with the prompt hi and one pipeline output, exactly
one completion is returned. -/
theorem predict_text_spec_witness :
    (predict_text (String.toList "hi") [String.toList "hi there"]).length = 1 :=
  (predict_text_spec (String.toList "hi") [String.toList "hi there"] 1 rfl).1

/-- C10: analyze_tokenization returns the length of the chosen
tokenizer's encoding of the sentence — the same count it reports — and
with no tokenizer name given it uses the GPT-2 tokenizer; the embedding is
pure, so the sentence and the table are unchanged. -/
theorem analyze_tokenization_len (tks : String → String → List Nat)
    (sentence tokenizer_name : String) :
    analyze_tokenization tks sentence tokenizer_name =
      (tks tokenizer_name sentence).length
    ∧ analyze_tokenization_default tks sentence = (tks "GPT-2" sentence).length :=
  ⟨rfl, rfl⟩

end Notebook
